import Mathlib

/-!
Shallow embedding of the filtered subgraph analysis engine of
`src/app/Helpers.py` (module `Helpers`): graph state with vertex/edge
filters, the statistics aggregator, the two k-core peeling strategies,
the external peeling process line protocol, hierarchical label
resolution, and adjacency export.

Conventions of the embedding:
* A `graph_tool.Graph` is a `GraphState`: vertices are `0 .. n-1`,
  edges are listed with their stable integer id given by list position.
  The two optional boolean masks model `set_vertex_filter` /
  `set_edge_filter` state (`none` = unfiltered).  An edge is visible
  iff it passes the edge mask and both endpoints pass the vertex mask,
  as in graph_tool.
* Python exceptions are modelled with `Except PyErr`.
* Strings handled by the label parser and the peeling protocol are
  modelled as `List Char` (`String.data`), with split / strip / int
  conversion implemented structurally so that concrete instances
  compute by `decide` / `rfl`.
-/

/-- Kinds of Python exceptions raised by the code paths modelled here:
`ValueError` (failed `int(...)`, failed tuple unpacking) and
`IndexError` (sequence index out of range). -/
inductive PyErr where
  | valueError
  | indexError
deriving Repr, DecidableEq

/-- State of a `graph_tool.Graph`: `n` vertices `0 .. n-1`, an edge list
whose positions are the stable edge ids, and the optional vertex/edge
filter masks (`G.get_vertex_filter()[0]` / `G.get_edge_filter()[0]`,
`none` meaning no filter is set). -/
structure GraphState where
  n : Nat
  edges : List (Nat × Nat)
  vfilt : Option (List Bool) := none
  efilt : Option (List Bool) := none
deriving Repr, DecidableEq

/-- Reading a boolean mask at an index; out-of-range reads are `false`
(a mask always has the length of the vertex/edge set it filters, so
this default is never exercised on well-formed states). -/
def maskGet (m : List Bool) (i : Nat) : Bool := m.getD i false

/-- A vertex is visible iff it exists and passes the vertex mask. -/
def vertexVisible (G : GraphState) (v : Nat) : Bool :=
  decide (v < G.n) && (match G.vfilt with
    | none => true
    | some m => maskGet m v)

/-- The visible (active) vertex set, in increasing order of id. -/
def visibleVertices (G : GraphState) : List Nat :=
  (List.range G.n).filter (vertexVisible G)

/-- `G.num_vertices()`: graph_tool counts only vertices passing the
active vertex filter. -/
def num_vertices (G : GraphState) : Nat := (visibleVertices G).length

/-- An edge is visible iff it passes the edge mask and both endpoints
are visible, the graph_tool filtering invariant. -/
def edgeVisibleAt (G : GraphState) (i : Nat) (e : Nat × Nat) : Bool :=
  (match G.efilt with
    | none => true
    | some m => maskGet m i) && vertexVisible G e.1 && vertexVisible G e.2

/-- The visible edge list (what `G.edges()` iterates). -/
def visibleEdges (G : GraphState) : List (Nat × Nat) :=
  (G.edges.enum.filter (fun p => edgeVisibleAt G p.1 p.2)).map Prod.snd

/-- `G.num_edges()` under the active filters. -/
def num_edges (G : GraphState) : Nat := (visibleEdges G).length

/-- Well-formedness of the stored edge list: endpoints are real
vertex ids. -/
def edgesWF (G : GraphState) : Prop := ∀ e ∈ G.edges, e.1 < G.n ∧ e.2 < G.n

/-- Degree of `v` with respect to an edge list (an endpoint occurrence
counts once, so a self-loop contributes twice, matching the undirected
out-degree used by `gt.vertex_hist(G, 'out')` up to self-loops, which
the analysed graphs do not carry). -/
def degInEdges (es : List (Nat × Nat)) (v : Nat) : Nat :=
  es.countP (fun e => e.1 == v) + es.countP (fun e => e.2 == v)

/-- Degree of a vertex in the filtered graph. -/
def degreeOf (G : GraphState) (v : Nat) : Nat := degInEdges (visibleEdges G) v

/-- Number of visible vertices having degree `d`: one bin of
`gt.vertex_hist(G, 'out', float_count=False)`. -/
def degCount (G : GraphState) (d : Nat) : Nat :=
  ((visibleVertices G).filter (fun v => degreeOf G v == d)).length

/-- Largest visible degree (0 on an empty vertex set): the histogram
of `gt.vertex_hist` has one bin per degree `0 .. maxDeg`. -/
def maxDeg (G : GraphState) : Nat :=
  ((visibleVertices G).map (degreeOf G)).foldr max 0

/-- Lines 33-36 of `statistics`: the degree histogram restricted to
bins with nonzero count (`incl_idx = np.where(deg_counts != 0)`),
paired as (bin value, count), ascending by bin value. -/
def degPairs (G : GraphState) : List (Nat × Nat) :=
  ((List.range (maxDeg G + 1)).map (fun d => (d, degCount G d))).filter
    (fun p => p.2 != 0)

/-- First occurrences of the elements of a list, in order of first
appearance (the key order of a Python `dict` / `collections.Counter`
built by one pass of insertions). -/
def firstOccGo (seen : List Nat) : List Nat → List Nat
  | [] => []
  | x :: xs => if x ∈ seen then firstOccGo seen xs else x :: firstOccGo (x :: seen) xs

/-- First occurrences of the elements of a list (see `firstOccGo`). -/
def firstOcc (l : List Nat) : List Nat := firstOccGo [] l

/-- `collections.Counter(xs).items()`: (value, multiplicity) pairs in
first-occurrence order. -/
def counterItems (xs : List Nat) : List (Nat × Nat) :=
  (firstOcc xs).map (fun v => (v, xs.count v))

/-- Degree of `v` inside the subgraph of `es` induced by the remaining
vertex set `S` (both endpoints must still be present). -/
def remDeg (es : List (Nat × Nat)) (S : List Nat) (v : Nat) : Nat :=
  degInEdges (es.filter (fun e => decide (e.1 ∈ S) && decide (e.2 ∈ S))) v

/-- Strict priority of removal used by the peeling model: smaller
remaining degree first, ties broken by smaller vertex id.  This is one
admissible schedule of the classical minimum-degree peeling; any such
schedule yields the same core numbers. -/
def peelBetter (es : List (Nat × Nat)) (S : List Nat) (a b : Nat) : Bool :=
  decide (remDeg es S a < remDeg es S b) ||
    (decide (remDeg es S a = remDeg es S b) && decide (a < b))

/-- Selection of the minimum of a list under a strict priority `b`
(`b v w = true` when `v` is to be preferred over `w`). -/
def foldMin (b : Nat → Nat → Bool) : List Nat → Option Nat
  | [] => none
  | v :: t =>
    match foldMin b t with
    | none => some v
    | some w => if b v w then some v else some w

/-- Vertex of minimum (remaining degree, id) in `S`, `none` iff `S`
is empty. -/
def pickMin (es : List (Nat × Nat)) (S : List Nat) : Option Nat :=
  foldMin (peelBetter es S) S

/-- Modelled from the spec: one run of classical degeneracy peeling
(the algorithm of both the external `graph_peeling.bin` process and the
library routine `gt.kcore_decomposition`, neither of which is part of
this repository): repeatedly remove a minimum-degree vertex, assigning
it as core number the running maximum of removal degrees.  `fuel`
bounds the recursion and is instantiated with `|S|`. -/
def peelGo (es : List (Nat × Nat)) : Nat → Nat → List Nat → List (Nat × Nat)
  | 0, _, _ => []
  | fuel + 1, cur, S =>
    match pickMin es S with
    | none => []
    | some v =>
      let d := max cur (remDeg es S v)
      (v, d) :: peelGo es fuel d (S.erase v)

/-- Core-number assignment (vertex, core) produced by peeling the
vertex set `S` against the edge list `es`. -/
def peelAssign (es : List (Nat × Nat)) (S : List Nat) : List (Nat × Nat) :=
  peelGo es S.length 0 S

/-- Vertices that occur in the serialized edge stream, in order of
first appearance.  The external process only ever learns about these
vertices: isolated vertices are never written to its standard input. -/
def endpointList (es : List (Nat × Nat)) : List Nat :=
  firstOcc (es.flatMap (fun e => [e.1, e.2]))

/-- Modelled from the spec: the core assignment computed by the
external peeling process from the streamed edge list.  It peels
exactly the vertices that appear as endpoints. -/
def processPeel (es : List (Nat × Nat)) : List (Nat × Nat) :=
  peelAssign es (endpointList es)

/-- Grouping of a core assignment into the mapping
core number -> vertex ids, keys in first-appearance order (a Python
dict built by inserting one bucket per `Core` line). -/
def groupCores (A : List (Nat × Nat)) : List (Nat × List Nat) :=
  (firstOcc (A.map Prod.snd)).map
    (fun k => (k, (A.filter (fun p => p.2 == k)).map Prod.fst))

/-- Looking one core number up in a grouped decomposition
(`peel_partition[k]`, `[]` when the key is absent). -/
def bucketOf (d : List (Nat × List Nat)) (k : Nat) : List Nat :=
  (d.filter (fun p => p.1 == k)).flatMap Prod.snd

/-- Python identity comparison `xs is []` evaluated on a list value:
the literal `[]` allocates a fresh object, so the comparison is false
for every operand (lines 95 and 97 of `Helpers.py`). -/
def pyIsEmptyListLiteral (_l : List Nat) : Bool := false

/-- Numpy fancy assignment `mask[idxs] = True` on a boolean mask.
Out-of-range indices would raise in numpy and are not modelled; the
callers analysed here pass in-range indices. -/
def setTrueAt (m : List Bool) (idxs : List Nat) : List Bool :=
  idxs.foldl (fun acc i => acc.set i true) m

/-- Lines 78-123 of `Helpers.py`, `kcore_decomposition(G, vlist, elist)`
with the external process modelled structurally (`processPeel` /
`groupCores`; the text protocol itself is modelled separately by
`processOutputLines` / `parsePeelOutput`).  If either index list is
truthy, fresh all-false masks are built, the dead `is []` branches are
evaluated (`pyIsEmptyListLiteral`, always false), the index lists are
written into the masks and both filters are set on the shared graph;
the filters are never restored.  Returns the updated graph state and
the core -> vertex ids mapping of the currently visible edges. -/
def kcore_decomposition (G : GraphState) (vlist elist : List Nat) :
    GraphState × List (Nat × List Nat) :=
  let G1 :=
    if vlist ≠ [] ∨ elist ≠ [] then
      let vp0 := List.replicate G.n false
      let ep0 := List.replicate G.edges.length false
      let vl := if pyIsEmptyListLiteral vlist then List.replicate G.n 1 else vlist
      let el :=
        if pyIsEmptyListLiteral vlist then elist
        else if pyIsEmptyListLiteral elist then List.replicate G.edges.length 1
        else elist
      { G with vfilt := some (setTrueAt vp0 vl), efilt := some (setTrueAt ep0 el) }
    else G
  (G1, groupCores (processPeel (visibleEdges G1)))

/-- Boolean test that `pat` starts the character list `l`
(`str.startswith`). -/
def isPrefList : List Char → List Char → Bool
  | [], _ => true
  | _ :: _, [] => false
  | a :: as, b :: bs => a == b && isPrefList as bs

/-- When `pat` starts `l`, the remainder of `l` after it. -/
def dropMatch : List Char → List Char → Option (List Char)
  | [], l => some l
  | _ :: _, [] => none
  | a :: as, b :: bs => if a == b then dropMatch as bs else none

/-- Worker for `chSplitOn`: scans left to right, splitting at each
non-overlapping occurrence of `sep`; `fuel` bounds the scan. -/
def chSplitGo (sep : List Char) : Nat → List Char → List Char → List (List Char)
  | 0, cur, _ => [cur.reverse]
  | _ + 1, cur, [] => [cur.reverse]
  | fuel + 1, cur, c :: rest =>
    match dropMatch sep (c :: rest) with
    | some rem => cur.reverse :: chSplitGo sep fuel [] rem
    | none => chSplitGo sep fuel (c :: cur) rest

/-- Python `str.split(sep)` for a nonempty separator, on character
lists. -/
def chSplitOn (sep l : List Char) : List (List Char) :=
  if sep = [] then [l] else chSplitGo sep (l.length + 1) [] l

/-- Decimal digits to a number, `none` on any non-digit. -/
def digitsVal (acc : Nat) : List Char → Option Nat
  | [] => some acc
  | c :: cs => if c.isDigit then digitsVal (acc * 10 + (c.toNat - 48)) cs else none

/-- Python `int(s)` on the character list of `s`: an optional minus
sign followed by at least one decimal digit, `none` (a `ValueError`)
otherwise.  Surrounding whitespace, an explicit plus sign and digit
underscores, which Python would also accept, do not occur in the
protocol and are not modelled. -/
def pyToInt (cs : List Char) : Option Int :=
  match cs with
  | '-' :: rest => if rest = [] then none else (digitsVal 0 rest).map (fun m => -(m : Int))
  | _ => if cs = [] then none else (digitsVal 0 cs).map (fun m => (m : Int))

/-- Helper of `pyStripSplit`: prepends the token being accumulated,
if any. -/
def wsFlush (cur : List Char) (acc : List (List Char)) : List (List Char) :=
  if cur = [] then acc else cur.reverse :: acc

/-- Worker for `pyStripSplit`. -/
def wsSplitGo (cur : List Char) (acc : List (List Char)) : List Char → List (List Char)
  | [] => (wsFlush cur acc).reverse
  | c :: rest =>
    if c.isWhitespace then wsSplitGo [] (wsFlush cur acc) rest
    else wsSplitGo (c :: cur) acc rest

/-- Python `s.strip().split()`: maximal runs of non-whitespace
characters (stripping is subsumed by whitespace-run splitting). -/
def pyStripSplit (cs : List Char) : List (List Char) :=
  wsSplitGo [] [] cs

/-- Insertion into a Python dict modelled as an association list:
overwriting keeps the key position, a new key is appended. -/
def dictInsert (d : List (Int × List (List Char))) (k : Int) (v : List (List Char)) :
    List (Int × List (List Char)) :=
  if d.any (fun p => p.1 == k) then d.map (fun p => if p.1 == k then (k, v) else p)
  else d ++ [(k, v)]

/-- Lines 111-121 of `Helpers.py`: the output-reading loop of
`kcore_decomposition`.  `lines` are the results of successive
`p.stdout.readline()` calls; an empty line marks end of stream (the
loop `break`).  Lines not starting with `Core` are skipped.  A `Core`
line must split on `' = '` into exactly two parts (otherwise the tuple
unpacking raises `ValueError`) and the trailing `_<int>` of the first
part must parse (otherwise `int` raises `ValueError`); the vertex ids
of the second part are kept as strings, as in the source. -/
def parsePeelGo :
    List (Int × List (List Char)) → List (List Char) →
      Except PyErr (List (Int × List (List Char)))
  | acc, [] => .ok acc
  | acc, line :: rest =>
    if line = [] then .ok acc
    else if !(isPrefList ("Core".data) line) then parsePeelGo acc rest
    else
      let parts := chSplitOn (" = ".data) line
      if parts.length = 2 then
        match pyToInt ((chSplitOn (['_']) (parts.headD [])).getLastD []) with
        | none => .error .valueError
        | some k => parsePeelGo (dictInsert acc k (pyStripSplit (parts.getLastD []))) rest
      else .error .valueError

/-- The full output-reading loop starting from the empty dict. -/
def parsePeelOutput (lines : List (List Char)) :
    Except PyErr (List (Int × List (List Char))) :=
  parsePeelGo [] lines

/-- Decimal representation of a natural number as characters. -/
def natChars (m : Nat) : List Char := (Nat.repr m).data

/-- Space-separated join of character lists. -/
def joinSpace : List (List Char) → List Char
  | [] => []
  | [x] => x
  | x :: xs => x ++ (' ' :: joinSpace xs)

/-- Modelled from the spec: one result line of the external peeling
process, `Core_<k> = <id1> ... <idN>`. -/
def mkCoreLine (k : Nat) (vs : List Nat) : List Char :=
  ("Core_".data) ++ natChars k ++ (" = ".data) ++ joinSpace (vs.map natChars)

/-- Modelled from the spec: the well-formed output stream of the
external peeling process on a given edge stream (one `Core` line per
core number; the process may interleave diagnostic lines, which the
reader skips). -/
def processOutputLines (es : List (Nat × Nat)) : List (List Char) :=
  (groupCores (processPeel es)).map (fun p => mkCoreLine p.1 p.2)

/-- The exact strategy at protocol level: serialize the visible edges,
run the modelled process, parse its output with the source loop. -/
def kcorePeelViaProtocol (G : GraphState) :
    Except PyErr (List (Int × List (List Char))) :=
  parsePeelOutput (processOutputLines (visibleEdges G))

/-- Association-list lookup with `Nat` keys. -/
def assocLookup : List (Nat × Nat) → Nat → Option Nat
  | [], _ => none
  | p :: t, v => if p.1 == v then some p.2 else assocLookup t v

/-- Modelled from the spec: `gt.kcore_decomposition(G)`, the library
whole-graph bucket-queue peeling, assigning every vertex of the graph
its core number (isolated vertices get core 0). -/
def libKcoreAssign (G : GraphState) : List (Nat × Nat) :=
  peelAssign G.edges (List.range G.n)

/-- The property-map array `kcore.a`: core number per vertex id. -/
def libKcoreArr (G : GraphState) : List Nat :=
  (List.range G.n).map (fun v => (assocLookup (libKcoreAssign G) v).getD 0)

/-- Lines 27-31 of `statistics`: the active index set `v_idx`, read
from the vertex mask when one is set (`np.where(vfilt.a == 1)`), else
`np.arange(G.num_vertices())`. -/
def activeIdx (G : GraphState) : List Nat :=
  match G.vfilt with
  | some m => (List.range G.n).filter (fun v => maskGet m v)
  | none => List.range (num_vertices G)

/-- Lines 57-59 of `statistics`, the fast peeling branch:
`C = Counter(kcore.a[v_idx])` followed by the unpacking
`peel_bins, peel_counts = [list(t) for t in zip(*C.items())]`, which
raises `ValueError` when the Counter is empty (zero active vertices):
`zip()` of nothing yields no tuples to unpack. -/
def fastPeelHist (G : GraphState) : Except PyErr (List Nat × List Nat) :=
  let sel := (activeIdx G).map (fun v => (libKcoreArr G).getD v 0)
  let C := counterItems sel
  if C = [] then .error .valueError else .ok (C.map Prod.fst, C.map Prod.snd)

/-- The core -> vertex-set decomposition the fast strategy is built on
(stated after the words of the spec, for comparison with the exact
strategy): active vertices grouped by their library core number.  The
counts materialized by `fastPeelHist` are the bucket sizes of this
grouping. -/
def fastPeelDecomp (G : GraphState) : List (Nat × List Nat) :=
  (firstOcc ((activeIdx G).map (fun v => (libKcoreArr G).getD v 0))).map
    (fun k => (k, (activeIdx G).filter (fun v => (libKcoreArr G).getD v 0 == k)))

/-- Two grouped decompositions denote the same
core number -> vertex-set mapping. -/
def decompEquiv (d1 d2 : List (Nat × List Nat)) : Prop :=
  ∀ k, (bucketOf d1 k).Perm (bucketOf d2 k)

/-- Insertion into a sorted list of naturals. -/
def sortedInsert (x : Nat) : List Nat → List Nat
  | [] => [x]
  | y :: ys => if x ≤ y then x :: y :: ys else y :: sortedInsert x ys

/-- Python `sorted` on naturals (insertion sort). -/
def sortNat : List Nat → List Nat
  | [] => []
  | x :: xs => sortedInsert x (sortNat xs)

/-- Insertion into a list of pairs sorted by first component. -/
def sortedInsertP (x : Nat × Nat) : List (Nat × Nat) → List (Nat × Nat)
  | [] => [x]
  | y :: ys => if x.1 ≤ y.1 then x :: y :: ys else y :: sortedInsertP x ys

/-- Python `sorted` on pairs with distinct first components. -/
def sortPairs : List (Nat × Nat) → List (Nat × Nat)
  | [] => []
  | x :: xs => sortedInsertP x (sortPairs xs)

/-- Adjacency test against an edge list, in either orientation. -/
def adjacentIn (es : List (Nat × Nat)) (u v : Nat) : Bool :=
  es.any (fun e => (e.1 == u && e.2 == v) || (e.1 == v && e.2 == u))

/-- One round of minimum-label propagation over the visible edges. -/
def ccRound (es : List (Nat × Nat)) (labs : List (Nat × Nat)) : List (Nat × Nat) :=
  labs.map (fun p =>
    (p.1, labs.foldl (fun m q => if adjacentIn es p.1 q.1 && q.2 < m then q.2 else m) p.2))

/-- Iterated label propagation. -/
def ccIterate (es : List (Nat × Nat)) : Nat → List (Nat × Nat) → List (Nat × Nat)
  | 0, labs => labs
  | k + 1, labs => ccIterate es k (ccRound es labs)

/-- Connected-component label per visible vertex (model of
`gt.label_components(G)` on the filtered view: `n` rounds of minimum
label propagation converge to the component minimum). -/
def ccLabelsOf (G : GraphState) : List Nat :=
  (ccIterate (visibleEdges G) G.n ((visibleVertices G).map (fun v => (v, v)))).map Prod.snd

/-- Lines 38-43 of `statistics`: component sizes, the histogram
(size -> number of components of that size) sorted ascending by size,
and the number of components. -/
def ccStats (G : GraphState) : List Nat × List Nat × Nat :=
  let labs := ccLabelsOf G
  let sizes := (firstOcc labs).map (fun l => labs.count l)
  let sc := sortPairs (counterItems sizes)
  (sc.map Prod.fst, sc.map Prod.snd, (firstOcc labs).length)

/-- Lines 51-53 of `statistics`: from the exact decomposition,
`peel_bins = sorted(keys)` and per-bin vertex counts. -/
def exactPeelHist (d : List (Nat × List Nat)) : List Nat × List Nat :=
  let bins := sortNat (d.map Prod.fst)
  (bins, bins.map (fun k => (bucketOf d k).length))

/-- Model of the reported `vlogv` string.  `fmt2 v` stands for
`'{:.2f}'.format(v * np.log2(v))`, finite for `v >= 1`; `nanStr` is
the string `'nan'`: for `v = 0` numpy evaluates `np.log2(0)` to `-inf`
and `0 * -inf` to IEEE NaN, which formats as `'nan'`, not as 0. -/
inductive PyFloatFmt where
  | nanStr
  | fmt2 (v : Nat)
deriving Repr, DecidableEq

/-- Line 61 of `statistics`: `vlogv = V * np.log2(V)` at the reported
vertex count, as a formatted value. -/
def npVlogv (V : Nat) : PyFloatFmt := if V = 0 then .nanStr else .fmt2 V

/-- Line 49 of `statistics`: a loaded filter object is truthy, so the
exact branch runs iff a vertex or an edge filter is set. -/
def filterActive (G : GraphState) : Bool := G.vfilt.isSome || G.efilt.isSome

/-- The statistics report assembled at lines 63-75 of `Helpers.py`. -/
structure StatsReport where
  num_vertices : Nat
  num_edges : Nat
  num_cc : Nat
  num_singletons : Nat
  vlogv : PyFloatFmt
  deg_bins : List Nat
  deg_counts : List Nat
  cc_sizes : List Nat
  cc_counts : List Nat
  peel_bins : List Nat
  peel_counts : List Nat
deriving Repr, DecidableEq

/-- Lines 13-75 of `Helpers.py`, `statistics(G)` for a loaded graph.
The degree histogram keeps the nonzero bins; `deg_bins[0]` at line 44
raises `IndexError` when that histogram is empty (zero visible
vertices).  The peeling strategy is exact
(`kcore_decomposition(G)`, visible edges recomputed) iff a filter is
active, else the fast grouped library decomposition, whose unpacking
can raise `ValueError` (see `fastPeelHist`). -/
def statistics (G : GraphState) : Except PyErr StatsReport :=
  let dp := degPairs G
  let binsAll := dp.map Prod.fst
  let countsAll := dp.map Prod.snd
  let cc := ccStats G
  match binsAll.head? with
  | none => .error .indexError
  | some b0 =>
    let ns := if b0 = 0 then countsAll.headD 0 else 0
    let peelRes : Except PyErr (List Nat × List Nat) :=
      if filterActive G then .ok (exactPeelHist (kcore_decomposition G [] []).2)
      else fastPeelHist G
    match peelRes with
    | .error e => .error e
    | .ok pr =>
      .ok {
        num_vertices := num_vertices G
        num_edges := num_edges G
        num_cc := cc.2.2
        num_singletons := ns
        vlogv := npVlogv (num_vertices G)
        deg_bins := binsAll
        deg_counts := countsAll
        cc_sizes := cc.1
        cc_counts := cc.2.1
        peel_bins := pr.1
        peel_counts := pr.2
      }

/-- Line 23 of `statistics`: with no loaded graph the sentinel string
is returned instead of a report. -/
def statisticsMaybe (G : Option GraphState) : Except PyErr (Sum String StatsReport) :=
  match G with
  | none => .ok (Sum.inl ("No Graph Loaded"))
  | some g => (statistics g).map Sum.inr

/-- Visible out-neighbours of `v` (`v.out_neighbours()` of the
undirected filtered view), in edge order. -/
def neighborsOf (G : GraphState) (v : Nat) : List Nat :=
  (visibleEdges G).flatMap
    (fun e => if e.1 == v then [e.2] else if e.2 == v then [e.1] else [])

/-- Lines 170-202 of `Helpers.py`, `save_adjacency`: builds fresh
masks true exactly at the given indices, sets both filters on the
shared graph (never restoring them), writes one line per visible
vertex (`<v> <neighbour> ...`) and returns the confirmation message.
Returns (mutated graph, written lines, message). -/
def save_adjacency (G : GraphState) (vlist elist : List Nat) (filename : List Char) :
    GraphState × List (List Char) × List Char :=
  let vp := setTrueAt (List.replicate G.n false) vlist
  let ep := setTrueAt (List.replicate G.edges.length false) elist
  let G1 := { G with vfilt := some vp, efilt := some ep }
  let lines := (visibleVertices G1).map
    (fun v => joinSpace ((v :: neighborsOf G1 v).map natChars))
  (G1, lines, ("Adjacency saved as ".data) ++ filename)

/-- Modelled from the spec: a `PartitionNode` of the external
`HierarchicalPartitioningTree` module (not part of this repository):
directly owned vertex/edge indices and the ordered child list (a leaf
has no children). -/
inductive PNode where
  | node (vertex_indices edge_indices : List Nat) (children : List PNode)

/-- Modelled from the spec: a `PartitionTree` owns a root node. -/
structure PTree where
  root : PNode

/-- The child list of a node. -/
def PNode.children : PNode → List PNode
  | .node _ _ c => c

/-- Resolution failures of `traverse_tree`: the spec's `InvalidLabel`
(in the source, an uncaught `IndexError` from `node.children[idx]` or
`ValueError` from `int(...)`). -/
inductive LabelErr where
  | invalidLabel
deriving Repr, DecidableEq

/-- Python list subscription `l[i]` with negative-index semantics:
`none` models `IndexError`. -/
def pyListIndex {α : Type} (l : List α) (i : Int) : Option α :=
  if 0 ≤ i then l.get? i.toNat
  else if (-i).toNat ≤ l.length then l.get? (l.length - (-i).toNat)
  else none

/-- Line 144 of `Helpers.py`: `int(s.split('_')[-1])`, the trailing
integer of a token. -/
def trailingInt (tok : List Char) : Option Int :=
  pyToInt ((chSplitOn (['_']) tok).getLastD [])

/-- Lines 143-146 of `Helpers.py`: the walk
`node = node.children[int(s.split('_')[-1])]` over the remaining
tokens. -/
def resolveTokens : PNode → List (List Char) → Except LabelErr PNode
  | nd, [] => .ok nd
  | nd, t :: rest =>
    match trailingInt t with
    | none => .error .invalidLabel
    | some i =>
      match pyListIndex nd.children i with
      | none => .error .invalidLabel
      | some c => resolveTokens c rest

/-- Case-insensitive comparison with a fixed word
(`s.lower() == w`). -/
def lowerEq (cs : List Char) (w : List Char) : Bool :=
  (cs.map Char.toLower) == w

/-- Lines 139-141 of `Helpers.py`: split the label on `'|'` and strip
a leading case-insensitive `root` token. -/
def labelTokens (label : List Char) : List (List Char) :=
  let subs := chSplitOn (['|']) label
  if lowerEq (subs.headD []) ("root".data) then subs.tail else subs

/-- Lines 126-146 of `Helpers.py`, `traverse_tree(T, label)`: the
whole label `root` (case-insensitive) resolves to the tree root,
otherwise the token walk runs from the root. -/
def traverse_tree (T : PTree) (label : List Char) : Except LabelErr PNode :=
  if lowerEq label ("root".data) then .ok T.root
  else resolveTokens T.root (labelTokens label)

/-! Helper lemmas. -/

theorem mem_firstOccGo (x : Nat) (l : List Nat) :
    ∀ seen, (x ∈ firstOccGo seen l ↔ (x ∈ l ∧ x ∉ seen)) := by
  induction l with
  | nil => intro seen; simp [firstOccGo]
  | cons y ys ih =>
    intro seen
    by_cases hy : y ∈ seen
    · rw [show firstOccGo seen (y :: ys) = firstOccGo seen ys from by
        simp [firstOccGo, hy]]
      rw [ih seen]
      constructor
      · rintro ⟨hxl, hxs⟩; exact ⟨List.mem_cons_of_mem _ hxl, hxs⟩
      · rintro ⟨hxl, hxs⟩
        rcases List.mem_cons.mp hxl with h | h
        · subst h; exact absurd hy hxs
        · exact ⟨h, hxs⟩
    · rw [show firstOccGo seen (y :: ys) = y :: firstOccGo (y :: seen) ys from by
        simp [firstOccGo, hy]]
      rw [List.mem_cons, ih (y :: seen)]
      constructor
      · rintro (rfl | ⟨hxl, hxs⟩)
        · exact ⟨List.mem_cons_self x ys, hy⟩
        · refine ⟨List.mem_cons_of_mem _ hxl, fun hxseen => hxs ?_⟩
          exact List.mem_cons_of_mem _ hxseen
      · rintro ⟨hxl, hxs⟩
        by_cases hxy : x = y
        · exact Or.inl hxy
        · rcases List.mem_cons.mp hxl with h | h
          · exact absurd h hxy
          · refine Or.inr ⟨h, fun hmem => ?_⟩
            rcases List.mem_cons.mp hmem with h2 | h2
            · exact hxy h2
            · exact hxs h2

theorem nodup_firstOccGo (l : List Nat) : ∀ seen, (firstOccGo seen l).Nodup := by
  induction l with
  | nil => intro seen; simp [firstOccGo]
  | cons y ys ih =>
    intro seen
    by_cases hy : y ∈ seen
    · rw [show firstOccGo seen (y :: ys) = firstOccGo seen ys from by
        simp [firstOccGo, hy]]
      exact ih seen
    · rw [show firstOccGo seen (y :: ys) = y :: firstOccGo (y :: seen) ys from by
        simp [firstOccGo, hy]]
      refine List.nodup_cons.mpr ⟨fun hmem => ?_, ih (y :: seen)⟩
      exact ((mem_firstOccGo y ys (y :: seen)).mp hmem).2 (List.mem_cons_self y seen)

theorem mem_firstOcc {x : Nat} {l : List Nat} : x ∈ firstOcc l ↔ x ∈ l := by
  unfold firstOcc
  rw [mem_firstOccGo x l []]
  simp

theorem nodup_firstOcc (l : List Nat) : (firstOcc l).Nodup :=
  nodup_firstOccGo l []

theorem mem_visibleVertices {G : GraphState} {v : Nat} :
    v ∈ visibleVertices G ↔ vertexVisible G v = true := by
  unfold visibleVertices
  rw [List.mem_filter, List.mem_range]
  constructor
  · exact fun h => h.2
  · intro h
    refine ⟨?_, h⟩
    unfold vertexVisible at h
    simp only [Bool.and_eq_true] at h
    exact of_decide_eq_true h.1

theorem visibleVertices_nofilter (G : GraphState) (h : G.vfilt = none) :
    visibleVertices G = List.range G.n := by
  unfold visibleVertices
  apply List.filter_eq_self.mpr
  intro v hv
  unfold vertexVisible
  rw [h]
  simp [List.mem_range.mp hv]

theorem num_vertices_nofilter (G : GraphState) (h : G.vfilt = none) :
    num_vertices G = G.n := by
  unfold num_vertices
  rw [visibleVertices_nofilter G h, List.length_range]

theorem mem_visibleEdges_endpoints {G : GraphState} {e : Nat × Nat}
    (h : e ∈ visibleEdges G) :
    vertexVisible G e.1 = true ∧ vertexVisible G e.2 = true := by
  unfold visibleEdges at h
  rcases List.mem_map.mp h with ⟨p, hp, rfl⟩
  rcases List.mem_filter.mp hp with ⟨_, hvis⟩
  unfold edgeVisibleAt at hvis
  simp only [Bool.and_eq_true] at hvis
  exact ⟨hvis.1.2, hvis.2⟩

theorem visibleEdges_nofilter (G : GraphState) (hv : G.vfilt = none)
    (he : G.efilt = none) (hwf : edgesWF G) : visibleEdges G = G.edges := by
  unfold visibleEdges
  have hfe : G.edges.enum.filter (fun p => edgeVisibleAt G p.1 p.2) = G.edges.enum := by
    apply List.filter_eq_self.mpr
    intro p hp
    have hmem : p.2 ∈ G.edges := by
      have hp2 : (p.1, p.2) ∈ G.edges.enum := by
        rw [Prod.mk.eta]
        exact hp
      rcases List.mem_enum hp2 with ⟨hlt, hget⟩
      rw [hget]
      exact List.getElem_mem hlt
    unfold edgeVisibleAt vertexVisible
    rw [hv, he]
    rcases hwf p.2 hmem with ⟨h1, h2⟩
    simp [h1, h2]
  rw [hfe, List.enum_map_snd]

theorem maskGet_replicate_false (k i : Nat) :
    maskGet (List.replicate k false) i = false := by
  unfold maskGet
  simp

theorem visibleVertices_vAllFalse (G : GraphState)
    (h : G.vfilt = some (List.replicate G.n false)) : visibleVertices G = [] := by
  unfold visibleVertices
  apply List.filter_eq_nil_iff.mpr
  intro v _
  unfold vertexVisible
  rw [h]
  simp [maskGet_replicate_false]

theorem visibleEdges_vAllFalse (G : GraphState)
    (h : G.vfilt = some (List.replicate G.n false)) : visibleEdges G = [] := by
  unfold visibleEdges
  have hfe : G.edges.enum.filter (fun p => edgeVisibleAt G p.1 p.2) = [] := by
    apply List.filter_eq_nil_iff.mpr
    intro p _
    unfold edgeVisibleAt vertexVisible
    rw [h]
    simp [maskGet_replicate_false]
  rw [hfe]
  simp

theorem visibleEdges_eAllFalse (G : GraphState)
    (h : G.efilt = some (List.replicate G.edges.length false)) : visibleEdges G = [] := by
  unfold visibleEdges
  have hfe : G.edges.enum.filter (fun p => edgeVisibleAt G p.1 p.2) = [] := by
    apply List.filter_eq_nil_iff.mpr
    intro p _
    unfold edgeVisibleAt
    rw [h]
    simp [maskGet_replicate_false]
  rw [hfe]
  simp

theorem foldMin_cons_ne_none (b : Nat → Nat → Bool) (v : Nat) (t : List Nat) :
    foldMin b (v :: t) ≠ none := by
  simp only [foldMin]
  split
  · simp
  · split <;> simp

theorem foldMin_eq_none_iff (b : Nat → Nat → Bool) (l : List Nat) :
    foldMin b l = none ↔ l = [] := by
  cases l with
  | nil => simp [foldMin]
  | cons v t =>
    constructor
    · intro h; exact absurd h (foldMin_cons_ne_none b v t)
    · intro h; exact List.noConfusion h

theorem foldMin_mem {b : Nat → Nat → Bool} {l : List Nat} {v : Nat}
    (h : foldMin b l = some v) : v ∈ l := by
  induction l with
  | nil => exact Option.noConfusion h
  | cons a t ih =>
    simp only [foldMin] at h
    split at h
    · cases h; exact List.mem_cons_self _ _
    · rename_i w hw
      split at h
      · cases h; exact List.mem_cons_self _ _
      · cases h; exact List.mem_cons_of_mem _ (ih hw)

theorem foldMin_best {b : Nat → Nat → Bool}
    (htot : ∀ x y, x ≠ y → b x y = true ∨ b y x = true)
    (htrans : ∀ x y z, b x y = true → b y z = true → b x z = true)
    (l : List Nat) :
    l.Nodup → ∀ v, foldMin b l = some v → ∀ w ∈ l, w ≠ v → b v w = true := by
  induction l with
  | nil => intro _ v h; exact Option.noConfusion h
  | cons a t ih =>
    intro hnd v h
    rcases List.nodup_cons.mp hnd with ⟨hat, hndt⟩
    intro w hw hwv
    simp only [foldMin] at h
    split at h
    · rename_i hnone
      have ht : t = [] := (foldMin_eq_none_iff b t).mp hnone
      subst ht
      cases h
      rcases List.mem_cons.mp hw with h2 | h2
      · exact absurd h2 hwv
      · exact absurd h2 (List.not_mem_nil w)
    · rename_i u hu
      have hut : u ∈ t := foldMin_mem hu
      have ihu := ih hndt u hu
      split at h
      · rename_i hb
        cases h
        rcases List.mem_cons.mp hw with h2 | h2
        · exact absurd h2 hwv
        · by_cases hwu : w = u
          · subst hwu; exact hb
          · exact htrans _ _ _ hb (ihu w h2 hwu)
      · rename_i hb
        cases h
        rcases List.mem_cons.mp hw with h2 | h2
        · subst h2
          rcases htot w v (fun he => hwv he) with h3 | h3
          · exact absurd h3 hb
          · exact h3
        · exact ihu w h2 hwv

theorem remDeg_congr (es : List (Nat × Nat)) {S S2 : List Nat}
    (h : ∀ x, x ∈ S ↔ x ∈ S2) (v : Nat) : remDeg es S v = remDeg es S2 v := by
  unfold remDeg
  have : es.filter (fun e => decide (e.1 ∈ S) && decide (e.2 ∈ S)) =
      es.filter (fun e => decide (e.1 ∈ S2) && decide (e.2 ∈ S2)) := by
    apply List.filter_congr
    intro e _
    rw [decide_eq_decide.mpr (h e.1), decide_eq_decide.mpr (h e.2)]
  rw [this]

theorem peelBetter_congr (es : List (Nat × Nat)) {S S2 : List Nat}
    (h : ∀ x, x ∈ S ↔ x ∈ S2) : peelBetter es S = peelBetter es S2 := by
  funext a c
  unfold peelBetter
  rw [remDeg_congr es h a, remDeg_congr es h c]

theorem peelBetter_total (es : List (Nat × Nat)) (S : List Nat) (a c : Nat)
    (h : a ≠ c) : peelBetter es S a c = true ∨ peelBetter es S c a = true := by
  unfold peelBetter
  rcases lt_trichotomy (remDeg es S a) (remDeg es S c) with hd | hd | hd
  · left; simp [hd]
  · rcases lt_or_gt_of_ne h with ha | ha
    · left; simp [hd, ha]
    · right; simp [hd.symm, ha]
  · right; simp [hd]

theorem peelBetter_trans (es : List (Nat × Nat)) (S : List Nat) (x y z : Nat)
    (h1 : peelBetter es S x y = true) (h2 : peelBetter es S y z = true) :
    peelBetter es S x z = true := by
  unfold peelBetter at *
  simp only [Bool.or_eq_true, Bool.and_eq_true, decide_eq_true_eq] at *
  rcases h1 with h1 | ⟨h1e, h1l⟩
  · rcases h2 with h2 | ⟨h2e, h2l⟩
    · exact Or.inl (lt_trans h1 h2)
    · exact Or.inl (lt_of_lt_of_eq h1 h2e)
  · rcases h2 with h2 | ⟨h2e, h2l⟩
    · exact Or.inl (lt_of_eq_of_lt h1e h2)
    · exact Or.inr ⟨h1e.trans h2e, lt_trans h1l h2l⟩

theorem peelBetter_asym (es : List (Nat × Nat)) (S : List Nat) (x y : Nat)
    (h1 : peelBetter es S x y = true) (h2 : peelBetter es S y x = true) : False := by
  unfold peelBetter at *
  simp only [Bool.or_eq_true, Bool.and_eq_true, decide_eq_true_eq] at *
  rcases h1 with h1 | ⟨h1e, h1l⟩
  · rcases h2 with h2 | ⟨h2e, h2l⟩
    · exact absurd (lt_trans h1 h2) (lt_irrefl _)
    · exact absurd h1 (by rw [h2e]; exact lt_irrefl _)
  · rcases h2 with h2 | ⟨h2e, h2l⟩
    · exact absurd h2 (by rw [h1e]; exact lt_irrefl _)
    · exact absurd (lt_trans h1l h2l) (lt_irrefl _)

theorem pickMin_eq_none_iff (es : List (Nat × Nat)) (S : List Nat) :
    pickMin es S = none ↔ S = [] :=
  foldMin_eq_none_iff _ S

theorem pickMin_mem {es : List (Nat × Nat)} {S : List Nat} {v : Nat}
    (h : pickMin es S = some v) : v ∈ S :=
  foldMin_mem h

theorem pickMin_best {es : List (Nat × Nat)} {S : List Nat} {v : Nat}
    (hnd : S.Nodup) (h : pickMin es S = some v) :
    ∀ w ∈ S, w ≠ v → peelBetter es S v w = true :=
  foldMin_best (peelBetter_total es S) (peelBetter_trans es S) S hnd v h

theorem pickMin_perm (es : List (Nat × Nat)) {S S2 : List Nat}
    (h : S.Perm S2) (hnd : S.Nodup) : pickMin es S = pickMin es S2 := by
  have hmem : ∀ x, x ∈ S ↔ x ∈ S2 := fun x => h.mem_iff
  have hb : peelBetter es S = peelBetter es S2 := peelBetter_congr es hmem
  have hnd2 : S2.Nodup := (h.nodup_iff).mp hnd
  rcases hS : pickMin es S with _ | v
  · have h0 : S = [] := (pickMin_eq_none_iff es S).mp hS
    have h02 : S2 = [] := by
      have hl : S2.length = 0 := by rw [← h.length_eq, h0]; rfl
      exact List.length_eq_zero.mp hl
    rw [(pickMin_eq_none_iff es S2).mpr h02]
  · rcases hS2 : pickMin es S2 with _ | v2
    · exfalso
      have h02 : S2 = [] := (pickMin_eq_none_iff es S2).mp hS2
      have h0 : S = [] := by
        have hl : S.length = 0 := by rw [h.length_eq, h02]; rfl
        exact List.length_eq_zero.mp hl
      rw [(pickMin_eq_none_iff es S).mpr h0] at hS
      exact Option.noConfusion hS
    · by_cases hv : v = v2
      · rw [hv]
      · exfalso
        have hvS : v ∈ S := pickMin_mem hS
        have hv2S2 : v2 ∈ S2 := pickMin_mem hS2
        have hv2S : v2 ∈ S := (hmem v2).mpr hv2S2
        have hvS2 : v ∈ S2 := (hmem v).mp hvS
        have b1 : peelBetter es S v v2 = true :=
          pickMin_best hnd hS v2 hv2S (fun he => hv he.symm)
        have b2 : peelBetter es S2 v2 v = true :=
          pickMin_best hnd2 hS2 v hvS2 hv
        rw [← hb] at b2
        exact peelBetter_asym es S v v2 b1 b2

theorem peelGo_perm (es : List (Nat × Nat)) :
    ∀ fuel cur (S S2 : List Nat), S.Perm S2 → S.Nodup →
      peelGo es fuel cur S = peelGo es fuel cur S2 := by
  intro fuel
  induction fuel with
  | zero => intro cur S S2 _ _; rfl
  | succ f ih =>
    intro cur S S2 h hnd
    have hmem : ∀ x, x ∈ S ↔ x ∈ S2 := fun x => h.mem_iff
    have hpk : pickMin es S2 = pickMin es S := (pickMin_perm es h hnd).symm
    rcases hp : pickMin es S with _ | v
    · rw [hp] at hpk
      simp only [peelGo, hp, hpk]
    · rw [hp] at hpk
      simp only [peelGo, hp, hpk]
      have hd : remDeg es S v = remDeg es S2 v := remDeg_congr es hmem v
      rw [hd]
      have hrec := ih (max cur (remDeg es S2 v)) (S.erase v) (S2.erase v)
        (h.erase v) (hnd.erase v)
      rw [hrec]

theorem peelGo_fst_perm (es : List (Nat × Nat)) :
    ∀ fuel (S : List Nat) cur, S.length ≤ fuel →
      ((peelGo es fuel cur S).map Prod.fst).Perm S := by
  intro fuel
  induction fuel with
  | zero =>
    intro S cur hlen
    have : S = [] := List.length_eq_zero.mp (Nat.le_zero.mp hlen)
    subst this
    rfl
  | succ f ih =>
    intro S cur hlen
    rcases hp : pickMin es S with _ | v
    · have h0 : S = [] := (pickMin_eq_none_iff es S).mp hp
      subst h0
      simp only [peelGo, hp]
      rfl
    · have hv : v ∈ S := pickMin_mem hp
      have hS : 1 ≤ S.length := List.length_pos.mpr (List.ne_nil_of_mem hv)
      have hlen2 : (S.erase v).length ≤ f := by
        rw [List.length_erase_of_mem hv]
        omega
      have ihh := ih (S.erase v) (max cur (remDeg es S v)) hlen2
      simp only [peelGo, hp, List.map_cons]
      exact (List.Perm.cons v ihh).trans (List.perm_cons_erase hv).symm

theorem peelAssign_perm (es : List (Nat × Nat)) {S S2 : List Nat}
    (h : S.Perm S2) (hnd : S.Nodup) : peelAssign es S = peelAssign es S2 := by
  unfold peelAssign
  rw [h.length_eq]
  exact peelGo_perm es S2.length 0 S S2 h hnd

theorem peelAssign_fst_perm (es : List (Nat × Nat)) (S : List Nat) :
    ((peelAssign es S).map Prod.fst).Perm S :=
  peelGo_fst_perm es S.length S 0 le_rfl

theorem filter_keyed_map (bins : List Nat) (g : Nat → List Nat) (k : Nat)
    (hnd : bins.Nodup) :
    ((bins.map (fun k2 => (k2, g k2))).filter (fun p => p.1 == k)).flatMap Prod.snd
      = if k ∈ bins then g k else [] := by
  induction bins with
  | nil => simp
  | cons b rest ih =>
    rcases List.nodup_cons.mp hnd with ⟨hbr, hndr⟩
    by_cases hbk : b = k
    · subst hbk
      simp only [List.map_cons, List.filter_cons, beq_self_eq_true, if_pos]
      have hrest : (rest.map (fun k2 => (k2, g k2))).filter (fun p => p.1 == b) = [] := by
        apply List.filter_eq_nil_iff.mpr
        intro p hp
        rcases List.mem_map.mp hp with ⟨k2, hk2, rfl⟩
        simp only [beq_iff_eq]
        intro he
        exact hbr (he ▸ hk2)
      rw [hrest]
      simp [List.mem_cons]
    · simp only [List.map_cons, List.filter_cons]
      rw [if_neg (by simp [hbk])]
      rw [ih hndr]
      by_cases hk : k ∈ rest
      · rw [if_pos hk, if_pos (List.mem_cons_of_mem b hk)]
      · rw [if_neg hk, if_neg (by
          intro hm
          rcases List.mem_cons.mp hm with he | he
          · exact hbk he.symm
          · exact hk he)]

theorem bucketOf_groupCores (A : List (Nat × Nat)) (k : Nat) :
    bucketOf (groupCores A) k = (A.filter (fun p => p.2 == k)).map Prod.fst := by
  unfold bucketOf groupCores
  rw [filter_keyed_map _ _ k (nodup_firstOcc _)]
  by_cases hk : k ∈ firstOcc (A.map Prod.snd)
  · rw [if_pos hk]
  · rw [if_neg hk]
    symm
    have h0 : A.filter (fun p => p.2 == k) = [] := by
      apply List.filter_eq_nil_iff.mpr
      intro p hp
      simp only [beq_iff_eq]
      intro he
      apply hk
      rw [mem_firstOcc]
      exact List.mem_map.mpr ⟨p, hp, he⟩
    rw [h0]
    rfl

theorem flatten_buckets_perm :
    ∀ (bins : List Nat) (A : List (Nat × Nat)), bins.Nodup →
      (∀ a ∈ A, a.2 ∈ bins) →
      ((bins.map (fun k => (A.filter (fun p => p.2 == k)).map Prod.fst)).flatten).Perm
        (A.map Prod.fst) := by
  intro bins
  induction bins with
  | nil =>
    intro A _ hcov
    have h0 : A = [] := by
      cases A with
      | nil => rfl
      | cons a t => exact absurd (hcov a (List.mem_cons_self a t)) (List.not_mem_nil _)
    subst h0
    simp
  | cons k rest ih =>
    intro A hnd hcov
    rcases List.nodup_cons.mp hnd with ⟨hkr, hndr⟩
    simp only [List.map_cons, List.flatten_cons]
    have hsplit : ((A.filter (fun p => p.2 == k)) ++
        A.filter (fun p => !(p.2 == k))).Perm A :=
      List.filter_append_perm _ A
    have hbuckets : rest.map (fun k2 => (A.filter (fun p => p.2 == k2)).map Prod.fst)
        = rest.map (fun k2 =>
            ((A.filter (fun p => !(p.2 == k))).filter (fun p => p.2 == k2)).map Prod.fst) := by
      apply List.map_congr_left
      intro k2 hk2
      have hk2k : k2 ≠ k := fun he => hkr (he ▸ hk2)
      have heq : (A.filter (fun p => !(p.2 == k))).filter (fun p => p.2 == k2)
          = A.filter (fun p => p.2 == k2) := by
        rw [List.filter_filter]
        apply List.filter_congr
        intro p _
        by_cases hpk : p.2 = k2
        · simp [hpk, hk2k]
        · simp [hpk]
      rw [heq]
    rw [hbuckets]
    have hcov2 : ∀ a ∈ A.filter (fun p => !(p.2 == k)), a.2 ∈ rest := by
      intro a ha
      rcases List.mem_filter.mp ha with ⟨haA, hne⟩
      rcases List.mem_cons.mp (hcov a haA) with he | he
      · exfalso
        rw [he] at hne
        simp at hne
      · exact he
    have ihh := ih (A.filter (fun p => !(p.2 == k))) hndr hcov2
    have step1 := List.Perm.append_left ((A.filter (fun p => p.2 == k)).map Prod.fst) ihh
    have step2 : ((A.filter (fun p => p.2 == k)).map Prod.fst ++
        (A.filter (fun p => !(p.2 == k))).map Prod.fst).Perm (A.map Prod.fst) := by
      rw [← List.map_append]
      exact hsplit.map Prod.fst
    exact step1.trans step2

theorem assocLookup_mem {A : List (Nat × Nat)} {v c : Nat}
    (h : assocLookup A v = some c) : (v, c) ∈ A := by
  induction A with
  | nil => exact Option.noConfusion h
  | cons p t ih =>
    simp only [assocLookup] at h
    split at h
    · rename_i hpv
      have hc : p.2 = c := Option.some.inj h
      have hp1 : p.1 = v := by simpa using hpv
      have hp : p = (v, c) := by
        cases p
        simp only [Prod.mk.injEq]
        exact ⟨hp1, hc⟩
      rw [← hp]
      exact List.mem_cons_self _ _
    · exact List.mem_cons_of_mem _ (ih h)

theorem assocLookup_eq_some {A : List (Nat × Nat)}
    (hnd : (A.map Prod.fst).Nodup) {v c : Nat} (h : (v, c) ∈ A) :
    assocLookup A v = some c := by
  induction A with
  | nil => cases h
  | cons p t ih =>
    simp only [List.map_cons, List.nodup_cons] at hnd
    rcases hnd with ⟨hp1, hndt⟩
    rcases List.mem_cons.mp h with he | he
    · rw [← he]
      simp [assocLookup]
    · have hv : v ∈ t.map Prod.fst := List.mem_map.mpr ⟨(v, c), he, rfl⟩
      have hne : p.1 ≠ v := fun hh => hp1 (hh ▸ hv)
      simp only [assocLookup]
      rw [if_neg (by simpa using hne)]
      exact ih hndt he

theorem mem_endpointList {es : List (Nat × Nat)} {v : Nat} :
    v ∈ endpointList es ↔ ∃ e ∈ es, e.1 = v ∨ e.2 = v := by
  unfold endpointList
  rw [mem_firstOcc, List.mem_flatMap]
  constructor
  · rintro ⟨e, he, hv⟩
    rcases List.mem_cons.mp hv with h1 | h1
    · exact ⟨e, he, Or.inl h1.symm⟩
    · rcases List.mem_cons.mp h1 with h2 | h2
      · exact ⟨e, he, Or.inr h2.symm⟩
      · exact absurd h2 (List.not_mem_nil v)
  · rintro ⟨e, he, h1 | h1⟩
    · exact ⟨e, he, h1 ▸ List.mem_cons_self _ _⟩
    · exact ⟨e, he, h1 ▸ List.mem_cons_of_mem _ (List.mem_cons_self _ _)⟩

theorem kcore_decomposition_nofilters (G : GraphState) :
    kcore_decomposition G [] [] = (G, groupCores (processPeel (visibleEdges G))) := by
  simp [kcore_decomposition]

theorem processPeel_fst_perm (es : List (Nat × Nat)) :
    ((processPeel es).map Prod.fst).Perm (endpointList es) :=
  peelAssign_fst_perm es (endpointList es)

theorem groupCores_flat_perm (A : List (Nat × Nat)) :
    ((groupCores A).flatMap Prod.snd).Perm (A.map Prod.fst) := by
  unfold groupCores
  rw [List.flatMap_map]
  have hdef : (firstOcc (A.map Prod.snd)).flatMap
      (fun k => (A.filter (fun p => p.2 == k)).map Prod.fst)
      = ((firstOcc (A.map Prod.snd)).map
          (fun k => (A.filter (fun p => p.2 == k)).map Prod.fst)).flatten :=
    List.flatMap_def _ _
  rw [hdef]
  apply flatten_buckets_perm _ _ (nodup_firstOcc _)
  intro a ha
  rw [mem_firstOcc]
  exact List.mem_map.mpr ⟨a, ha, rfl⟩

theorem exactDecomp_flat_perm (G : GraphState) :
    (((kcore_decomposition G [] []).2).flatMap Prod.snd).Perm
      (endpointList (visibleEdges G)) := by
  rw [kcore_decomposition_nofilters G]
  exact (groupCores_flat_perm (processPeel (visibleEdges G))).trans
    (processPeel_fst_perm (visibleEdges G))

theorem endpointList_visible (G : GraphState) :
    ∀ v ∈ endpointList (visibleEdges G), v ∈ visibleVertices G := by
  intro v hv
  rcases mem_endpointList.mp hv with ⟨e, he, hcase⟩
  rcases mem_visibleEdges_endpoints he with ⟨h1, h2⟩
  rcases hcase with h | h
  · exact mem_visibleVertices.mpr (h ▸ h1)
  · exact mem_visibleVertices.mpr (h ▸ h2)

theorem endpointList_perm_range (G : GraphState) (hwf : edgesWF G)
    (hcov : ∀ v < G.n, ∃ e ∈ G.edges, e.1 = v ∨ e.2 = v) :
    (endpointList G.edges).Perm (List.range G.n) := by
  apply (List.perm_ext_iff_of_nodup (nodup_firstOcc _) (List.nodup_range G.n)).mpr
  intro v
  constructor
  · intro hv
    rcases mem_endpointList.mp hv with ⟨e, he, h | h⟩
    · exact List.mem_range.mpr (h ▸ (hwf e he).1)
    · exact List.mem_range.mpr (h ▸ (hwf e he).2)
  · intro hv
    exact mem_endpointList.mpr (hcov v (List.mem_range.mp hv))

theorem rangeMap_getD (f : Nat → Nat) (n v : Nat) (hv : v < n) :
    ((List.range n).map f).getD v 0 = f v := by
  simp [List.getD_eq_getElem?_getD, List.getElem?_map, List.getElem?_range, hv]

theorem libKcoreArr_getD (G : GraphState) (v : Nat) (hv : v < G.n) :
    (libKcoreArr G).getD v 0 = (assocLookup (libKcoreAssign G) v).getD 0 :=
  rangeMap_getD _ G.n v hv

theorem activeIdx_nofilter (G : GraphState) (h : G.vfilt = none) :
    activeIdx G = List.range G.n := by
  unfold activeIdx
  rw [num_vertices_nofilter G h]
  split
  · rename_i m hm
    rw [h] at hm
    exact Option.noConfusion hm
  · rfl

theorem exact_eq_lib_assign (G : GraphState) (hv : G.vfilt = none)
    (he : G.efilt = none) (hwf : edgesWF G)
    (hcov : ∀ v < G.n, ∃ e ∈ G.edges, e.1 = v ∨ e.2 = v) :
    processPeel (visibleEdges G) = libKcoreAssign G := by
  rw [visibleEdges_nofilter G hv he hwf]
  unfold processPeel libKcoreAssign
  exact peelAssign_perm G.edges (endpointList_perm_range G hwf hcov) (nodup_firstOcc _)

theorem mem_coreBucket {A : List (Nat × Nat)} {v k : Nat} :
    v ∈ (A.filter (fun p => p.2 == k)).map Prod.fst ↔ (v, k) ∈ A := by
  rw [List.mem_map]
  constructor
  · rintro ⟨p, hp, rfl⟩
    rcases List.mem_filter.mp hp with ⟨hpA, hpk⟩
    have h2 : p.2 = k := by simpa using hpk
    have hp2 : p = (p.1, k) := Prod.ext rfl h2
    exact hp2 ▸ hpA
  · intro h
    exact ⟨(v, k), List.mem_filter.mpr ⟨h, by simp⟩, rfl⟩

theorem bucketOf_fastPeelDecomp (G : GraphState) (k : Nat) :
    bucketOf (fastPeelDecomp G) k
      = (activeIdx G).filter (fun v => (libKcoreArr G).getD v 0 == k) := by
  unfold bucketOf fastPeelDecomp
  rw [filter_keyed_map _ _ k (nodup_firstOcc _)]
  by_cases hk : k ∈ firstOcc ((activeIdx G).map (fun v => (libKcoreArr G).getD v 0))
  · rw [if_pos hk]
  · rw [if_neg hk]
    symm
    apply List.filter_eq_nil_iff.mpr
    intro v hv
    simp only [beq_iff_eq]
    intro he
    exact hk (mem_firstOcc.mpr (List.mem_map.mpr ⟨v, hv, he⟩))

theorem le_foldr_max {x : Nat} : ∀ {l : List Nat}, x ∈ l → x ≤ l.foldr max 0 := by
  intro l
  induction l with
  | nil => intro h; cases h
  | cons y t ih =>
    intro h
    rcases List.mem_cons.mp h with h1 | h1
    · subst h1
      exact le_max_left _ _
    · exact le_trans (ih h1) (le_max_right _ _)

theorem degCount_le_maxDeg (G : GraphState) (d : Nat) (h : degCount G d ≠ 0) :
    d ≤ maxDeg G := by
  unfold degCount at h
  have hne : (visibleVertices G).filter (fun v => degreeOf G v == d) ≠ [] := by
    intro h0
    rw [h0] at h
    exact h rfl
  rcases List.exists_mem_of_ne_nil _ hne with ⟨v, hv⟩
  rcases List.mem_filter.mp hv with ⟨hvv, hvd⟩
  have hd : degreeOf G v = d := by simpa using hvd
  unfold maxDeg
  exact le_foldr_max (List.mem_map.mpr ⟨v, hvv, hd⟩)

theorem degPairs_mem_eq (G : GraphState) {p : Nat × Nat} (hp : p ∈ degPairs G) :
    p.2 = degCount G p.1 := by
  unfold degPairs at hp
  rcases List.mem_filter.mp hp with ⟨hp1, _⟩
  rcases List.mem_map.mp hp1 with ⟨d, _, rfl⟩
  rfl

theorem degPairs_fst_pairwise (G : GraphState) :
    ((degPairs G).map Prod.fst).Pairwise (· < ·) := by
  have h1 : ((List.range (maxDeg G + 1)).map
      (fun d => (d, degCount G d))).Pairwise (fun p q => p.1 < q.1) := by
    rw [List.pairwise_map]
    simpa using List.pairwise_lt_range (maxDeg G + 1)
  have h2 : (degPairs G).Pairwise (fun p q => p.1 < q.1) :=
    List.Pairwise.sublist (List.filter_sublist _) h1
  rw [List.pairwise_map]
  exact h2

theorem mem_degPairs_fst (G : GraphState) (d : Nat) :
    d ∈ (degPairs G).map Prod.fst ↔ degCount G d ≠ 0 := by
  constructor
  · intro h
    rcases List.mem_map.mp h with ⟨p, hp, rfl⟩
    have h2 := degPairs_mem_eq G hp
    unfold degPairs at hp
    rcases List.mem_filter.mp hp with ⟨_, hp2⟩
    rw [← h2]
    simpa using hp2
  · intro h
    apply List.mem_map.mpr
    refine ⟨(d, degCount G d), ?_, rfl⟩
    unfold degPairs
    apply List.mem_filter.mpr
    constructor
    · apply List.mem_map.mpr
      refine ⟨d, ?_, rfl⟩
      exact List.mem_range.mpr (Nat.lt_succ_of_le (degCount_le_maxDeg G d h))
    · simpa using h

theorem degPairs_snd_map (G : GraphState) :
    (degPairs G).map Prod.snd = ((degPairs G).map Prod.fst).map (degCount G) := by
  rw [List.map_map]
  apply List.map_congr_left
  intro p hp
  exact degPairs_mem_eq G hp

theorem degPairs_head_ne_zero (G : GraphState) (b0 : Nat)
    (hh : ((degPairs G).map Prod.fst).head? = some b0) (hb : b0 ≠ 0) :
    degCount G 0 = 0 := by
  by_contra h0
  have hmem : 0 ∈ (degPairs G).map Prod.fst := (mem_degPairs_fst G 0).mpr h0
  have hpw := degPairs_fst_pairwise G
  rcases hl : (degPairs G).map Prod.fst with _ | ⟨a, t⟩
  · rw [hl] at hmem
    exact absurd hmem (List.not_mem_nil 0)
  · rw [hl] at hh
    have ha : a = b0 := Option.some.inj (by simpa using hh)
    rw [hl] at hmem hpw
    rcases List.mem_cons.mp hmem with h1 | h1
    · exact hb (ha ▸ h1.symm)
    · have := (List.pairwise_cons.mp hpw).1 0 h1
      exact absurd this (Nat.not_lt_zero a)

theorem statistics_ok_spec (G : GraphState) (r : StatsReport)
    (h : statistics G = .ok r) :
    ∃ b0, ((degPairs G).map Prod.fst).head? = some b0 ∧
      r.deg_bins = (degPairs G).map Prod.fst ∧
      r.deg_counts = (degPairs G).map Prod.snd ∧
      r.num_singletons = (if b0 = 0 then ((degPairs G).map Prod.snd).headD 0 else 0) ∧
      r.num_vertices = num_vertices G ∧
      ((filterActive G = true ∧
          (r.peel_bins, r.peel_counts) = exactPeelHist (kcore_decomposition G [] []).2) ∨
        (filterActive G = false ∧ fastPeelHist G = .ok (r.peel_bins, r.peel_counts))) := by
  simp only [statistics] at h
  split at h
  · exact absurd h (by simp)
  · rename_i b0 hh
    split at h
    · exact absurd h (by simp)
    · rename_i pr hpr
      have hr : r = _ := (Except.ok.inj h).symm
      subst hr
      refine ⟨b0, hh, rfl, rfl, rfl, rfl, ?_⟩
      by_cases hf : filterActive G = true
      · left
        refine ⟨hf, ?_⟩
        rw [if_pos hf] at hpr
        have hpe := Except.ok.inj hpr
        simp only []
        rw [Prod.mk.eta]
        exact hpe.symm
      · right
        have hf2 : filterActive G = false := by
          revert hf
          cases filterActive G <;> simp
        refine ⟨hf2, ?_⟩
        rw [if_neg hf] at hpr
        simp only []
        rw [Prod.mk.eta]
        exact hpr

theorem resolveTokens_append (a : List (List Char)) (nd : PNode) (b : List (List Char)) :
    resolveTokens nd (a ++ b) =
      match resolveTokens nd a with
      | .ok m => resolveTokens m b
      | .error e => .error e := by
  induction a generalizing nd with
  | nil => simp [resolveTokens]
  | cons t rest ih =>
    simp only [List.cons_append, resolveTokens]
    rcases hti : trailingInt t with _ | i
    · rfl
    · dsimp only
      rcases hpi : pyListIndex nd.children i with _ | c
      · rfl
      · exact ih c

theorem pyListIndex_gt {α : Type} (l : List α) (i : Int)
    (h : (l.length : Int) < i) : pyListIndex l i = none := by
  unfold pyListIndex
  have h0 : 0 ≤ i := le_trans (Int.natCast_nonneg l.length) (le_of_lt h)
  rw [if_pos h0]
  apply List.get?_eq_none.mpr
  have h2 : (l.length : Int) < (i.toNat : Int) := by rwa [Int.toNat_of_nonneg h0]
  exact_mod_cast le_of_lt h2

theorem pyListIndex_nil {α : Type} (i : Int) : pyListIndex ([] : List α) i = none := by
  unfold pyListIndex
  by_cases h0 : 0 ≤ i
  · rw [if_pos h0]
    rfl
  · rw [if_neg h0]
    have hne : ¬((-i).toNat ≤ ([] : List α).length) := by
      simp only [List.length_nil, Nat.le_zero]
      intro hz
      exact h0 (neg_nonpos.mp (Int.toNat_eq_zero.mp hz))
    rw [if_neg hne]

theorem kcore_decomposition_withFilters (G : GraphState) (vlist elist : List Nat)
    (h : vlist ≠ [] ∨ elist ≠ []) :
    kcore_decomposition G vlist elist =
      ({ G with vfilt := some (setTrueAt (List.replicate G.n false) vlist),
                efilt := some (setTrueAt (List.replicate G.edges.length false) elist) },
        groupCores (processPeel (visibleEdges
          { G with vfilt := some (setTrueAt (List.replicate G.n false) vlist),
                   efilt := some (setTrueAt (List.replicate G.edges.length false) elist) }))) := by
  simp only [kcore_decomposition, pyIsEmptyListLiteral, if_pos h, Bool.false_eq_true,
    if_false]

/-! Claim theorems. -/

/-- C1: whenever `statistics` produces a report, its peeling histogram
comes from the exact strategy (external-process recomputation over the
visible edges, `kcore_decomposition`) precisely when a vertex or edge
filter is active on the graph, and otherwise from the fast strategy
that groups the library whole-graph k-core decomposition over the
active vertex set (`fastPeelHist`). -/
theorem c1_statistics_strategy_selection (G : GraphState) (r : StatsReport)
    (h : statistics G = .ok r) :
    (filterActive G = true →
      (r.peel_bins, r.peel_counts) = exactPeelHist (kcore_decomposition G [] []).2) ∧
    (filterActive G = false →
      fastPeelHist G = .ok (r.peel_bins, r.peel_counts)) := by
  rcases statistics_ok_spec G r h with ⟨b0, _, _, _, _, _, hsel⟩
  constructor
  · intro hf
    rcases hsel with ⟨_, he⟩ | ⟨hff, _⟩
    · exact he
    · rw [hf] at hff
      exact Bool.noConfusion hff
  · intro hf
    rcases hsel with ⟨hft, _⟩ | ⟨_, he⟩
    · rw [hf] at hft
      exact Bool.noConfusion hft
    · exact he

/-- Witness for C1: a concrete graph with an active vertex filter,
whose report is produced by the exact strategy. -/
theorem c1_statistics_strategy_selection_witness :
    statistics ⟨2, [(0, 1)], some [true, true], none⟩ =
      .ok ⟨2, 1, 1, 0, .fmt2 2, [1], [2], [2], [1], [1], [2]⟩ ∧
    ((filterActive ⟨2, [(0, 1)], some [true, true], none⟩ = true →
      ((⟨2, 1, 1, 0, .fmt2 2, [1], [2], [2], [1], [1], [2]⟩ : StatsReport).peel_bins,
        (⟨2, 1, 1, 0, .fmt2 2, [1], [2], [2], [1], [1], [2]⟩ : StatsReport).peel_counts) =
        exactPeelHist (kcore_decomposition ⟨2, [(0, 1)], some [true, true], none⟩ [] []).2) ∧
     (filterActive ⟨2, [(0, 1)], some [true, true], none⟩ = false →
      fastPeelHist ⟨2, [(0, 1)], some [true, true], none⟩ =
        .ok ((⟨2, 1, 1, 0, .fmt2 2, [1], [2], [2], [1], [1], [2]⟩ : StatsReport).peel_bins,
          (⟨2, 1, 1, 0, .fmt2 2, [1], [2], [2], [1], [1], [2]⟩ : StatsReport).peel_counts))) :=
  ⟨rfl, c1_statistics_strategy_selection _ _ rfl⟩

/-- C2 counterexample: on the unfiltered one-vertex graph with no
edges the two strategies disagree: the exact strategy streams no edge
to the external process and returns the empty mapping, while the fast
strategy places the isolated vertex in the core-0 bucket.  So the two
code paths do not agree on every unfiltered graph. -/
theorem c2_exact_fast_disagree :
    ¬ decompEquiv (kcore_decomposition ⟨1, [], none, none⟩ [] []).2
        (fastPeelDecomp ⟨1, [], none, none⟩) := by
  intro h
  have h0 := h 0
  revert h0
  decide

/-- C2 amended: on every unfiltered well-formed graph in which every
vertex is the endpoint of at least one edge, the exact strategy and
the fast strategy produce the same core-number-to-vertex-set
decomposition. -/
theorem c2_peel_strategies_agree (G : GraphState)
    (hv : G.vfilt = none) (he : G.efilt = none) (hwf : edgesWF G)
    (hcov : ∀ v < G.n, ∃ e ∈ G.edges, e.1 = v ∨ e.2 = v) :
    decompEquiv (kcore_decomposition G [] []).2 (fastPeelDecomp G) := by
  intro k
  rw [kcore_decomposition_nofilters G]
  show (bucketOf (groupCores (processPeel (visibleEdges G))) k).Perm _
  rw [exact_eq_lib_assign G hv he hwf hcov]
  rw [bucketOf_groupCores, bucketOf_fastPeelDecomp, activeIdx_nofilter G hv]
  have hAfst : ((libKcoreAssign G).map Prod.fst).Perm (List.range G.n) :=
    peelAssign_fst_perm G.edges (List.range G.n)
  have hAnd : ((libKcoreAssign G).map Prod.fst).Nodup :=
    (hAfst.nodup_iff).mpr (List.nodup_range _)
  have hnd1 : (((libKcoreAssign G).filter (fun p => p.2 == k)).map Prod.fst).Nodup :=
    List.Nodup.sublist (List.Sublist.map Prod.fst (List.filter_sublist _)) hAnd
  have hnd2 : ((List.range G.n).filter
      (fun v => (libKcoreArr G).getD v 0 == k)).Nodup :=
    (List.nodup_range G.n).filter _
  apply (List.perm_ext_iff_of_nodup hnd1 hnd2).mpr
  intro v
  rw [mem_coreBucket, List.mem_filter, List.mem_range]
  constructor
  · intro hvk
    have hvmem : v ∈ (libKcoreAssign G).map Prod.fst :=
      List.mem_map.mpr ⟨(v, k), hvk, rfl⟩
    have hvn : v < G.n := List.mem_range.mp (hAfst.mem_iff.mp hvmem)
    refine ⟨hvn, ?_⟩
    rw [libKcoreArr_getD G v hvn]
    rw [assocLookup_eq_some hAnd hvk]
    simp
  · rintro ⟨hvn, hk⟩
    have hk2 : (libKcoreArr G).getD v 0 = k := by simpa using hk
    have hvmem : v ∈ (libKcoreAssign G).map Prod.fst :=
      hAfst.mem_iff.mpr (List.mem_range.mpr hvn)
    rcases List.mem_map.mp hvmem with ⟨p, hpA, hpv⟩
    have hvc : (v, p.2) ∈ libKcoreAssign G := by
      have hp2 : p = (v, p.2) := Prod.ext hpv rfl
      exact hp2 ▸ hpA
    have hlook : assocLookup (libKcoreAssign G) v = some p.2 :=
      assocLookup_eq_some hAnd hvc
    rw [libKcoreArr_getD G v hvn, hlook] at hk2
    simp only [Option.getD_some] at hk2
    rw [← hk2]
    exact hvc

/-- Witness for C2 amended: on the unfiltered single-edge graph both
strategies yield the same decomposition. -/
theorem c2_peel_strategies_agree_witness :
    edgesWF ⟨2, [(0, 1)], none, none⟩ ∧
    (∀ v < (2 : Nat), ∃ e ∈ [((0 : Nat), (1 : Nat))], e.1 = v ∨ e.2 = v) ∧
    decompEquiv (kcore_decomposition ⟨2, [(0, 1)], none, none⟩ [] []).2
      (fastPeelDecomp ⟨2, [(0, 1)], none, none⟩) :=
  ⟨by unfold edgesWF; decide, by decide,
    c2_peel_strategies_agree _ rfl rfl (by unfold edgesWF; decide) (by decide)⟩

/-- C3 counterexample: a filtered subgraph whose only visible vertex
has no visible incident edge.  `kcore_decomposition` streams only the
visible edges, so the returned mapping is empty and its bucket union
is not the active vertex set: the partition claim fails. -/
theorem c3_not_partition_of_active :
    ¬ (((kcore_decomposition ⟨2, [(0, 1)], some [true, false], some [false]⟩ [] []).2.flatMap
        Prod.snd).Perm
      (visibleVertices ⟨2, [(0, 1)], some [true, false], some [false]⟩)) := by
  decide

/-- C3 amended: the mapping returned by the exact peeling partitions
the set of endpoints of visible edges: the concatenation of all
buckets is a permutation of the duplicate-free endpoint list (so each
endpoint vertex lies in exactly one bucket), and every such endpoint
is an active vertex.  Visible vertices with no visible incident edge
appear in no bucket. -/
theorem c3_partitions_visible_endpoints (G : GraphState) :
    (((kcore_decomposition G [] []).2.flatMap Prod.snd).Perm
      (endpointList (visibleEdges G))) ∧
    (endpointList (visibleEdges G)).Nodup ∧
    (∀ v ∈ endpointList (visibleEdges G), v ∈ visibleVertices G) :=
  ⟨exactDecomp_flat_perm G, nodup_firstOcc _, endpointList_visible G⟩

/-- Witness for C3 amended at the unfiltered 3-vertex path graph. -/
theorem c3_partitions_visible_endpoints_witness :
    (((kcore_decomposition ⟨3, [(0, 1), (1, 2)], none, none⟩ [] []).2.flatMap
        Prod.snd).Perm
      (endpointList (visibleEdges ⟨3, [(0, 1), (1, 2)], none, none⟩))) ∧
    (endpointList (visibleEdges ⟨3, [(0, 1), (1, 2)], none, none⟩)).Nodup ∧
    (∀ v ∈ endpointList (visibleEdges ⟨3, [(0, 1), (1, 2)], none, none⟩),
      v ∈ visibleVertices ⟨3, [(0, 1), (1, 2)], none, none⟩) :=
  c3_partitions_visible_endpoints ⟨3, [(0, 1), (1, 2)], none, none⟩

/-- C4 counterexample: when the external process exits before
producing any output (the read loop sees end of stream immediately),
`kcore_decomposition`'s reading loop returns an empty mapping without
raising anything: it does not fail, contrary to the claim. -/
theorem c4_empty_output_is_silent : parsePeelOutput [] = .ok [] := rfl

/-- C4 amended: the reading loop silently returns the mapping
accumulated so far (possibly empty) when the output stream ends; a
line starting with `Core` raises `ValueError` when it does not split
into exactly two parts around `' = '` (tuple unpacking) or when the
trailing `_<int>` of its first part does not parse; lines not starting
with `Core` are skipped, not errors. -/
theorem c4_parse_error_behavior (l : List Char) (ls : List (List Char)) :
    (l ≠ [] → isPrefList ("Core".data) l = false →
      parsePeelOutput (l :: ls) = parsePeelOutput ls) ∧
    (isPrefList ("Core".data) l = true →
      (chSplitOn (" = ".data) l).length ≠ 2 →
      ∀ acc, parsePeelGo acc (l :: ls) = .error .valueError) ∧
    (isPrefList ("Core".data) l = true →
      (chSplitOn (" = ".data) l).length = 2 →
      pyToInt ((chSplitOn (['_'])
        ((chSplitOn (" = ".data) l).headD [])).getLastD []) = none →
      ∀ acc, parsePeelGo acc (l :: ls) = .error .valueError) := by
  have hprefne : ∀ hp : isPrefList ("Core".data) l = true, l ≠ [] := by
    intro hp h0
    rw [h0] at hp
    exact Bool.noConfusion hp
  refine ⟨?_, ?_, ?_⟩
  · intro hne hpref
    unfold parsePeelOutput
    simp only [parsePeelGo, if_neg hne, hpref]
    rfl
  · intro hpref hlen acc
    simp only [parsePeelGo, if_neg (hprefne hpref), hpref]
    simp only [Bool.not_true, Bool.false_eq_true, if_false, if_neg hlen]
  · intro hpref hlen hint acc
    simp only [parsePeelGo, if_neg (hprefne hpref), hpref]
    simp only [Bool.not_true, Bool.false_eq_true, if_false, if_pos hlen, hint]

/-- Witness for C4 amended: a diagnostic line is skipped, a `Core`
line without `' = '` raises, and a `Core` line with a non-integer
core token raises. -/
theorem c4_parse_error_behavior_witness :
    (("diag".data ≠ ([] : List Char)) ∧
      isPrefList ("Core".data) ("diag".data) = false ∧
      parsePeelOutput [("diag".data)] = parsePeelOutput []) ∧
    (isPrefList ("Core".data) ("Core garbage".data) = true ∧
      (chSplitOn (" = ".data) ("Core garbage".data)).length ≠ 2 ∧
      parsePeelGo [] [("Core garbage".data)] = .error .valueError) ∧
    (isPrefList ("Core".data) ("Core_x = 1 2".data) = true ∧
      (chSplitOn (" = ".data) ("Core_x = 1 2".data)).length = 2 ∧
      pyToInt ((chSplitOn (['_'])
        ((chSplitOn (" = ".data) ("Core_x = 1 2".data)).headD [])).getLastD []) = none ∧
      parsePeelGo [] [("Core_x = 1 2".data)] = .error .valueError) :=
  ⟨⟨by decide, by decide,
      (c4_parse_error_behavior _ _).1 (by decide) (by decide)⟩,
    ⟨by decide, by decide,
      (c4_parse_error_behavior _ _).2.1 (by decide) (by decide) []⟩,
    ⟨by decide, by decide, by decide,
      (c4_parse_error_behavior _ _).2.2 (by decide) (by decide) (by decide) []⟩⟩

/-- C5: with zero vertices neither strategy special-cases the input.
`statistics` raises `IndexError` (at `deg_bins[0]`) before peeling is
even reached; the fast-path grouping raises `ValueError` when it
unpacks `zip()` of an empty `Counter`; the exact path spawns the
process regardless and returns an empty mapping only because the edge
stream is empty. -/
theorem c5_zero_vertices_behavior :
    statistics ⟨0, [], none, none⟩ = .error .indexError ∧
    fastPeelHist ⟨0, [], none, none⟩ = .error .valueError ∧
    (kcore_decomposition ⟨0, [], none, none⟩ [] []).2 = [] :=
  ⟨rfl, rfl, rfl⟩

/-- C6: label resolution fails (with the spec taxonomy's
`InvalidLabel`, in the source an uncaught exception) for every label
in which some token's trailing integer exceeds the number of children
of the node reached at that depth, and for every label whose walk
continues past a leaf (a node with no children). -/
theorem c6_traverse_invalid_label (T : PTree) (label : List Char)
    (hroot : lowerEq label ("root".data) = false) :
    (∀ pre tok rest nd i,
      labelTokens label = pre ++ tok :: rest →
      resolveTokens T.root pre = .ok nd →
      trailingInt tok = some i →
      ((nd.children.length : Int) < i) →
      traverse_tree T label = .error .invalidLabel) ∧
    (∀ pre tok rest nd,
      labelTokens label = pre ++ tok :: rest →
      resolveTokens T.root pre = .ok nd →
      nd.children = [] →
      traverse_tree T label = .error .invalidLabel) := by
  constructor
  · intro pre tok rest nd i hsplit hpre hti hgt
    unfold traverse_tree
    simp only [hroot, Bool.false_eq_true, if_false]
    rw [hsplit, resolveTokens_append, hpre]
    dsimp only
    have hnone : pyListIndex nd.children i = none := pyListIndex_gt _ _ hgt
    simp only [resolveTokens, hti, hnone]
  · intro pre tok rest nd hsplit hpre hch
    unfold traverse_tree
    simp only [hroot, Bool.false_eq_true, if_false]
    rw [hsplit, resolveTokens_append, hpre]
    dsimp only
    rcases hti : trailingInt tok with _ | i
    · simp only [resolveTokens, hti]
    · have hnone : pyListIndex nd.children i = none := by
        rw [hch]
        exact pyListIndex_nil i
      simp only [resolveTokens, hti, hnone]

/-- Witness for C6: an over-large child index fails on a two-child
root, and a walk past a leaf fails. -/
theorem c6_traverse_invalid_label_witness :
    lowerEq ("a_5".data) ("root".data) = false ∧
    traverse_tree ⟨PNode.node [] [] [PNode.node [1] [2] [], PNode.node [3] [4] []]⟩
      ("a_5".data) = .error .invalidLabel ∧
    lowerEq ("x_0|y_1".data) ("root".data) = false ∧
    traverse_tree ⟨PNode.node [1] [2] []⟩ ("x_0|y_1".data) = .error .invalidLabel := by
  refine ⟨by decide, ?_, by decide, ?_⟩
  · exact (c6_traverse_invalid_label
      ⟨PNode.node [] [] [PNode.node [1] [2] [], PNode.node [3] [4] []]⟩
      ("a_5".data) (by decide)).1 [] ("a_5".data) [] _ 5 (by decide) rfl
      (by decide) (by decide)
  · exact (c6_traverse_invalid_label ⟨PNode.node [1] [2] []⟩
      ("x_0|y_1".data) (by decide)).2 [] ("x_0".data) [("y_1".data)] _
      (by decide) rfl rfl

/-- C7: at zero active vertices `statistics` never reports a
complexity estimate at all: it raises `IndexError` at the degree
histogram access before line 61 is reached; and the `vlogv` value
model at `V = 0` is IEEE NaN (`0 * log2(0) = 0 * -inf`), which
formats as the string `nan`, not as 0. -/
theorem c7_vlogv_zero_vertices :
    statistics ⟨1, [], some [false], none⟩ = .error .indexError ∧
    num_vertices ⟨1, [], some [false], none⟩ = 0 ∧
    npVlogv 0 = .nanStr ∧ (∀ v : Nat, npVlogv v = .nanStr ↔ v = 0) :=
  ⟨rfl, rfl, rfl, by
    intro v
    unfold npVlogv
    split
    · rename_i h
      exact ⟨fun _ => h, fun _ => rfl⟩
    · rename_i h
      exact ⟨fun hh => PyFloatFmt.noConfusion hh, fun hh => absurd hh h⟩⟩

/-- C8 counterexample: when the filtered degree histogram is empty
(all vertices are filtered out), `statistics` raises `IndexError` at
`deg_bins[0]` instead of producing a report with `num_singletons = 0`:
no report with an empty histogram exists. -/
theorem c8_empty_histogram_raises :
    statistics ⟨2, [], some [false, false], none⟩ = .error .indexError := rfl

/-- C8 amended: in every report `statistics` actually produces, the
degree histogram contains exactly the bins with nonzero count sorted
ascending, counts aligned per bin, and `num_singletons` equals the
count of degree-0 vertices (the degree-0 bin when present, 0
otherwise).  When the histogram would be empty no report is produced
(`IndexError`, see the counterexample). -/
theorem c8_deg_hist_and_singletons (G : GraphState) (r : StatsReport)
    (h : statistics G = .ok r) :
    r.deg_bins.Pairwise (· < ·) ∧
    (∀ d, d ∈ r.deg_bins ↔ degCount G d ≠ 0) ∧
    r.deg_counts = r.deg_bins.map (degCount G) ∧
    r.num_singletons = degCount G 0 := by
  rcases statistics_ok_spec G r h with ⟨b0, hh, hbins, hcounts, hns, _, _⟩
  refine ⟨?_, ?_, ?_, ?_⟩
  · rw [hbins]
    exact degPairs_fst_pairwise G
  · intro d
    rw [hbins]
    exact mem_degPairs_fst G d
  · rw [hbins, hcounts]
    exact degPairs_snd_map G
  · rw [hns]
    by_cases hb : b0 = 0
    · rw [if_pos hb]
      rcases hl : (degPairs G).map Prod.fst with _ | ⟨a, t⟩
      · rw [hl] at hh
        exact absurd hh (by simp)
      · rw [hl] at hh
        have ha : a = b0 := by simpa using hh
        rw [degPairs_snd_map G, hl]
        simp [ha, hb]
    · rw [if_neg hb]
      exact (degPairs_head_ne_zero G b0 hh hb).symm

/-- Witness for C8 amended at the unfiltered 3-vertex path graph. -/
theorem c8_deg_hist_and_singletons_witness :
    statistics ⟨3, [(0, 1), (1, 2)], none, none⟩ =
      .ok ⟨3, 2, 1, 0, .fmt2 3, [1, 2], [2, 1], [3], [1], [1], [3]⟩ ∧
    (((⟨3, 2, 1, 0, .fmt2 3, [1, 2], [2, 1], [3], [1], [1], [3]⟩ :
        StatsReport).deg_bins.Pairwise (· < ·)) ∧
      (∀ d, d ∈ (⟨3, 2, 1, 0, .fmt2 3, [1, 2], [2, 1], [3], [1], [1], [3]⟩ :
          StatsReport).deg_bins ↔
        degCount ⟨3, [(0, 1), (1, 2)], none, none⟩ d ≠ 0) ∧
      (⟨3, 2, 1, 0, .fmt2 3, [1, 2], [2, 1], [3], [1], [1], [3]⟩ :
          StatsReport).deg_counts =
        (⟨3, 2, 1, 0, .fmt2 3, [1, 2], [2, 1], [3], [1], [1], [3]⟩ :
          StatsReport).deg_bins.map (degCount ⟨3, [(0, 1), (1, 2)], none, none⟩) ∧
      (⟨3, 2, 1, 0, .fmt2 3, [1, 2], [2, 1], [3], [1], [1], [3]⟩ :
          StatsReport).num_singletons =
        degCount ⟨3, [(0, 1), (1, 2)], none, none⟩ 0) :=
  ⟨rfl, c8_deg_hist_and_singletons _ _ rfl⟩

/-- C9: the Python identity comparisons `vlist is []` and
`elist is []` are always false, so with exactly one non-empty index
list the mask for the empty list stays all-false.  Calling with a
non-empty edge list and an empty vertex list installs an all-false
vertex filter and peels a view with zero visible vertices (empty
result), not an unrestricted vertex set; symmetrically, a non-empty
vertex list with an empty edge list hides every edge. -/
theorem c9_identity_comparison_masks (G : GraphState) (vlist elist : List Nat) :
    pyIsEmptyListLiteral vlist = false ∧
    pyIsEmptyListLiteral elist = false ∧
    (elist ≠ [] →
      (kcore_decomposition G [] elist).1.vfilt = some (List.replicate G.n false) ∧
      num_vertices (kcore_decomposition G [] elist).1 = 0 ∧
      (kcore_decomposition G [] elist).2 = []) ∧
    (vlist ≠ [] →
      (kcore_decomposition G vlist []).1.efilt =
        some (List.replicate G.edges.length false) ∧
      visibleEdges (kcore_decomposition G vlist []).1 = [] ∧
      (kcore_decomposition G vlist []).2 = []) := by
  refine ⟨rfl, rfl, ?_, ?_⟩
  · intro hne
    rw [kcore_decomposition_withFilters G [] elist (Or.inr hne)]
    refine ⟨rfl, ?_, ?_⟩
    · unfold num_vertices
      rw [visibleVertices_vAllFalse _ rfl]
      rfl
    · rw [visibleEdges_vAllFalse _ rfl]
      rfl
  · intro hne
    rw [kcore_decomposition_withFilters G vlist [] (Or.inl hne)]
    refine ⟨rfl, ?_, ?_⟩
    · exact visibleEdges_eAllFalse _ rfl
    · rw [visibleEdges_eAllFalse _ rfl]
      rfl

/-- Witness for C9 on a concrete two-vertex graph. -/
theorem c9_identity_comparison_masks_witness :
    pyIsEmptyListLiteral [0] = false ∧
    (kcore_decomposition ⟨2, [(0, 1)], none, none⟩ [] [0]).1.vfilt =
      some (List.replicate 2 false) ∧
    num_vertices (kcore_decomposition ⟨2, [(0, 1)], none, none⟩ [] [0]).1 = 0 ∧
    (kcore_decomposition ⟨2, [(0, 1)], none, none⟩ [] [0]).2 = [] ∧
    (kcore_decomposition ⟨2, [(0, 1)], none, none⟩ [0] []).1.efilt =
      some (List.replicate 1 false) ∧
    visibleEdges (kcore_decomposition ⟨2, [(0, 1)], none, none⟩ [0] []).1 = [] ∧
    (kcore_decomposition ⟨2, [(0, 1)], none, none⟩ [0] []).2 = [] := by
  have h := c9_identity_comparison_masks ⟨2, [(0, 1)], none, none⟩ [0] [0]
  rcases h with ⟨h1, _, h3, h4⟩
  rcases h3 (by decide) with ⟨a, b, c⟩
  rcases h4 (by decide) with ⟨d, e, f⟩
  exact ⟨h1, a, b, c, d, e, f⟩

/-- C10: `save_adjacency` always, and `kcore_decomposition` whenever
given a non-empty vertex or edge list, leave the shared graph with its
vertex and edge filters set to the masks induced by the given index
lists — whatever filters were installed before are not restored, so
the mutation remains visible on the returned graph state. -/
theorem c10_filters_not_restored (G : GraphState) (vlist elist : List Nat)
    (fn : List Char) :
    ((save_adjacency G vlist elist fn).1 =
      { G with vfilt := some (setTrueAt (List.replicate G.n false) vlist),
               efilt := some (setTrueAt (List.replicate G.edges.length false) elist) }) ∧
    (vlist ≠ [] ∨ elist ≠ [] →
      (kcore_decomposition G vlist elist).1 =
        { G with vfilt := some (setTrueAt (List.replicate G.n false) vlist),
                 efilt := some (setTrueAt (List.replicate G.edges.length false) elist) }) := by
  constructor
  · rfl
  · intro h
    rw [kcore_decomposition_withFilters G vlist elist h]

/-- Witness for C10 on a graph that carries previous filters: after
the calls both filters equal the induced masks, not the old ones. -/
theorem c10_filters_not_restored_witness :
    ((save_adjacency ⟨2, [(0, 1)], some [false, false], some [false]⟩ [0, 1] [0]
        ("out.txt".data)).1 =
      { n := 2, edges := [(0, 1)],
        vfilt := some (setTrueAt (List.replicate 2 false) [0, 1]),
        efilt := some (setTrueAt (List.replicate 1 false) [0]) }) ∧
    ((kcore_decomposition ⟨2, [(0, 1)], some [false, false], some [false]⟩
        [0, 1] [0]).1 =
      { n := 2, edges := [(0, 1)],
        vfilt := some (setTrueAt (List.replicate 2 false) [0, 1]),
        efilt := some (setTrueAt (List.replicate 1 false) [0]) }) :=
  ⟨(c10_filters_not_restored ⟨2, [(0, 1)], some [false, false], some [false]⟩
      [0, 1] [0] ("out.txt".data)).1,
    (c10_filters_not_restored ⟨2, [(0, 1)], some [false, false], some [false]⟩
      [0, 1] [0] ("out.txt".data)).2 (by decide)⟩
